import Mathlib

/-!
Verification of the PyFy Postman-collection resolver (src/wrapped-out.py).

The development embeds the two core functions of the script as pure Lean
functions over a model of JSON values:

- get_environment_map (source lines 11-26): builds the variable map from an
  environment document.
- find_and_process_items (source lines 28-75): recursively walks a collection
  tree, extracts request descriptors and substitutes placeholder tokens.

Python exceptions are modelled with Except PyErr: code paths on which the
Python code raises an uncaught exception return .error, and the try/except
block of the source (lines 55-73, catching KeyError and TypeError) is
modelled by the total function tryProcessRequest returning an Option.
Machine-level details that the claims do not touch (floating point numbers)
are simplified to Int; JSON object keys are strings, as produced by
json.load.
-/

/-- Model of a Python value loaded from JSON: null, bool, number, string,
list, or dict (insertion-ordered association list with string keys). -/
inductive JVal where
  | jnull : JVal
  | jbool : Bool → JVal
  | jnum : Int → JVal
  | jstr : String → JVal
  | jarr : List JVal → JVal
  | jobj : List (String × JVal) → JVal

/-- Uncaught Python exceptions that the embedded code can raise. -/
inductive PyErr where
  | typeError : PyErr
  | keyError : PyErr
  | attributeError : PyErr
deriving DecidableEq

/-- The variable map built by get_environment_map: a Python dict, i.e. an
insertion-ordered association list with unique (up to Python equality) keys.
Keys and values are arbitrary JSON values, as in the source. -/
abbrev VarMap := List (JVal × JVal)

/-- Python truthiness of a JSON-loaded value (bool(x)). -/
def truthy : JVal → Bool
  | .jnull => false
  | .jbool b => b
  | .jnum n => n != 0
  | .jstr s => s != ""
  | .jarr l => !l.isEmpty
  | .jobj l => !l.isEmpty

/-- Python equality (==) between two dict keys.  Among the hashable JSON
values, strings equal only equal strings, null equals only null, and
booleans compare equal to the numbers 0 and 1 (True == 1, False == 0). -/
def pyEqKey : JVal → JVal → Bool
  | .jstr a, .jstr b => a == b
  | .jnum a, .jnum b => a == b
  | .jbool a, .jbool b => a == b
  | .jnull, .jnull => true
  | .jbool a, .jnum b => (if a then (1 : Int) else 0) == b
  | .jnum a, .jbool b => a == (if b then (1 : Int) else 0)
  | _, _ => false

/-- Whether a value may be used as a Python dict key (lists and dicts are
unhashable; using one as a key raises TypeError). -/
def hashableKey : JVal → Bool
  | .jarr _ => false
  | .jobj _ => false
  | _ => true

/-- Lookup of a string key in a JSON object (first match; objects produced
by json.load have unique keys). -/
def objGet? : List (String × JVal) → String → Option JVal
  | [], _ => none
  | (k0, v0) :: rest, k => if k0 == k then some v0 else objGet? rest k

/-- Python dict assignment d[k] = v: if a key equal (==) to k is present its
value is updated in place (the stored key object is kept), otherwise the new
binding is appended. -/
def dictInsert : VarMap → JVal → JVal → VarMap
  | [], k, v => [(k, v)]
  | (k0, v0) :: rest, k, v =>
      if pyEqKey k0 k then (k0, v) :: rest
      else (k0, v0) :: dictInsert rest k v

/-- Python dict lookup d[k] (as an Option): first binding whose stored key
is == to k. -/
def lookupVM : VarMap → JVal → Option JVal
  | [], _ => none
  | (k0, v0) :: rest, k => if pyEqKey k0 k then some v0 else lookupVM rest k

/-- Lookup of a Python string in the variable map: only string keys can be
== to a string. -/
def lookupVar (em : VarMap) (p : String) : Option JVal :=
  lookupVM em (.jstr p)

/-- Whether the character list pat starts the character list s. -/
def startsWithL : List Char → List Char → Bool
  | [], _ => true
  | _ :: _, [] => false
  | p :: ps, c :: cs => p == c && startsWithL ps cs

/-- Whether pat occurs as a contiguous substring of s (Python: pat in s for
strings). -/
def containsSub (pat : List Char) : List Char → Bool
  | [] => startsWithL pat []
  | c :: cs => startsWithL pat (c :: cs) || containsSub pat cs

/-- Python membership test k in x for a string k (source line 22 and lines
50, 54).  On a dict it tests the keys, on a list it tests the elements (a
string equals only an equal string), on a string it is a substring test, and
on any other JSON value it raises TypeError (argument not iterable). -/
def pyContains : JVal → String → Except PyErr Bool
  | .jobj fields, k => .ok (fields.any (fun f => f.1 == k))
  | .jarr items, k =>
      .ok (items.any (fun it => match it with | .jstr s => s == k | _ => false))
  | .jstr s, k => .ok (containsSub k.data s.data)
  | _, _ => .error .typeError

/-- Python indexing x[k] for a string k.  Dicts look the key up (KeyError
when absent); lists, strings, numbers, booleans and None raise TypeError
when indexed with a string. -/
def pyIndexStr : JVal → String → Except PyErr JVal
  | .jobj fields, k =>
      match objGet? fields k with
      | some v => .ok v
      | none => .error .keyError
  | _, _ => .error .typeError

/-- One iteration of the loop of get_environment_map (source lines 23-25):
item.get("enabled", False) requires item to be a dict (otherwise
AttributeError); when the enabled flag is truthy and both "key" and "value"
are present, variable_map[item["key"]] = item["value"] is executed, which
raises TypeError when the key value is unhashable. -/
def processEntry (m : VarMap) (it : JVal) : Except PyErr VarMap :=
  match it with
  | .jobj f =>
      if truthy ((objGet? f "enabled").getD (.jbool false))
          && (objGet? f "key").isSome && (objGet? f "value").isSome then
        match objGet? f "key", objGet? f "value" with
        | some k, some v =>
            if hashableKey k then .ok (dictInsert m k v) else .error .typeError
        | _, _ => .ok m
      else .ok m
  | _ => .error .attributeError

/-- The for loop of get_environment_map over the entries of "values". -/
def gemLoop : VarMap → List JVal → Except PyErr VarMap
  | m, [] => .ok m
  | m, it :: rest =>
      match processEntry m it with
      | .ok m2 => gemLoop m2 rest
      | .error e => .error e

/-- get_environment_map (source lines 11-26): if "values" is a member of
env_data and env_data["values"] is a list, fold the entries into the
variable map; otherwise return the empty map. -/
def get_environment_map (env_data : JVal) : Except PyErr VarMap :=
  match pyContains env_data "values" with
  | .error e => .error e
  | .ok false => .ok []
  | .ok true =>
      match pyIndexStr env_data "values" with
      | .error e => .error e
      | .ok (.jarr items) => gemLoop [] items
      | .ok _ => .ok []

/-- Whether a character may appear inside a placeholder name (the regex
class excluding both braces). -/
def notBrace (c : Char) : Bool := c != '{' && c != '}'

/-- Attempt to match one placeholder token (the regex of source line 61: two
opening braces, one or more non-brace characters, two closing braces) at the
head of the character list; on success return the captured name and the
characters following the token. -/
def matchPlaceholderAt : List Char → Option (String × List Char)
  | c1 :: c2 :: rest =>
      if c1 = '{' ∧ c2 = '{' then
        match rest.takeWhile notBrace, rest.dropWhile notBrace with
        | [], _ => none
        | name, a1 :: a2 :: tail =>
            if a1 = '}' ∧ a2 = '}' then some (String.mk name, tail) else none
        | _, _ => none
      else none
  | _ => none

/-- Fuelled scan of re.findall over the character list: leftmost
non-overlapping matches, advancing one character when no match starts at the
current position.  Each step consumes at least one character, so fuel equal
to the length of the list is always sufficient. -/
def findPlaceholdersF : Nat → List Char → List String
  | 0, _ => []
  | _ + 1, [] => []
  | f + 1, c :: cs =>
      match matchPlaceholderAt (c :: cs) with
      | some (name, rest) => name :: findPlaceholdersF f rest
      | none => findPlaceholdersF f cs

/-- re.findall of the placeholder pattern over a character list (source line
61): the list of captured names in order of occurrence. -/
def findPlaceholders (s : List Char) : List String :=
  findPlaceholdersF s.length s

/-- The exact token text built by the f-string of source line 67: two
opening braces, the name, two closing braces. -/
def placeholderToken (p : String) : List Char :=
  '{' :: '{' :: (p.data ++ ['}', '}'])

/-- Fuelled str.replace: replace every non-overlapping occurrence of pat,
scanning left to right.  An empty pattern never arises at the call site
(placeholder tokens are at least five characters); it is treated as
matching nothing.  Each step consumes at least one character, so fuel equal
to the length of the subject is always sufficient. -/
def replaceAllF (pat rep : List Char) : Nat → List Char → List Char
  | 0, s => s
  | _ + 1, [] => []
  | f + 1, c :: cs =>
      if !pat.isEmpty && startsWithL pat (c :: cs) then
        rep ++ replaceAllF pat rep f (List.drop (pat.length - 1) cs)
      else c :: replaceAllF pat rep f cs

/-- str.replace(pat, rep) on character lists (source line 67). -/
def replaceAll (pat rep s : List Char) : List Char :=
  replaceAllF pat rep s.length s

/-- The substitution loop of source lines 65-67: for each found placeholder
name, in order, if the name is in the variable map replace every occurrence
of its token with the mapped value.  A non-string mapped value makes
str.replace raise TypeError. -/
def substLoop (em : VarMap) : List String → List Char → Except PyErr (List Char)
  | [], resolved => .ok resolved
  | p :: rest, resolved =>
      match lookupVar em p with
      | some (.jstr rep) =>
          substLoop em rest (replaceAll (placeholderToken p) rep.data resolved)
      | some _ => .error .typeError
      | none => substLoop em rest resolved

/-- Source lines 61-67: find all placeholders of the raw URL, then run the
substitution loop on it. -/
def resolve_url (raw : String) (em : VarMap) : Except PyErr String :=
  match substLoop em (findPlaceholders raw.data) raw.data with
  | .ok resolved => .ok (String.mk resolved)
  | .error e => .error e

/-- The try block of source lines 55-73 applied to collection_item["request"]:
extract url.raw and the method (default "N/A"), then resolve the URL.  All
KeyError/TypeError paths of the block (missing "url" or "raw", non-dict
"url", non-string raw, non-string substituted value) are caught by the
except clause, so the function is total and failure yields none. -/
def tryProcessRequest (req : JVal) (em : VarMap) : Option (JVal × String) :=
  match req with
  | .jobj rf =>
      match objGet? rf "url" with
      | some (.jobj uf) =>
          match objGet? uf "raw" with
          | some (.jstr raw) =>
              match resolve_url raw em with
              | .ok resolved => some ((objGet? rf "method").getD (.jstr "N/A"), resolved)
              | .error _ => none
          | some _ => none
          | none => none
      | some _ => none
      | none => none
  | _ => none

/-- The request part of a dict node (source lines 54-73): when a "request"
key is present, the successfully extracted pair forms a one-element list,
otherwise nothing is contributed. -/
def requestPart (fields : List (String × JVal)) (em : VarMap) : List (JVal × String) :=
  match objGet? fields "request" with
  | some req =>
      match tryProcessRequest req em with
      | some p => [p]
      | none => []
  | none => []

mutual

/-- Size of a JSON value, used as the canonical fuel of the fuelled
recursions below. -/
def jsize : JVal → Nat
  | .jnull => 1
  | .jbool _ => 1
  | .jnum _ => 1
  | .jstr _ => 1
  | .jarr items => jsizeL items + 1
  | .jobj fields => jsizeF fields + 1

/-- Size of a list of JSON values. -/
def jsizeL : List JVal → Nat
  | [] => 1
  | it :: rest => jsize it + jsizeL rest + 1

/-- Size of the field list of a JSON object. -/
def jsizeF : List (String × JVal) → Nat
  | [] => 1
  | (_, v) :: rest => jsize v + jsizeF rest + 1

end

/-- Fuelled find_and_process_items (source lines 28-75).  A list node
recurses into its elements in order and concatenates the results (lines
44-47); a dict node first recurses into its "item" field when that is a
list (lines 50-51) and then appends its own request part (lines 54-73); a
string node evaluates the membership test "item" in s, raising TypeError
via s["item"] when it holds, and contributes nothing otherwise (the
"request" in s path is absorbed by the try/except); numbers, booleans and
None make the membership test itself raise TypeError.  Fuel bounded below
by jsize of the node is always sufficient. -/
def fapiF : Nat → JVal → VarMap → Except PyErr (List (JVal × String))
  | 0, _, _ => .error .typeError
  | _ + 1, .jarr [], _ => .ok []
  | f + 1, .jarr (it :: rest), em =>
      match fapiF f it em with
      | .error e => .error e
      | .ok r1 =>
          match fapiF f (.jarr rest) em with
          | .error e => .error e
          | .ok r2 => .ok (r1 ++ r2)
  | f + 1, .jobj fields, em =>
      match objGet? fields "item" with
      | some (.jarr l) =>
          match fapiF f (.jarr l) em with
          | .error e => .error e
          | .ok r1 => .ok (r1 ++ requestPart fields em)
      | _ => .ok (requestPart fields em)
  | _ + 1, .jstr s, _ =>
      if containsSub ("item".data) s.data then .error .typeError else .ok []
  | _ + 1, .jnum _, _ => .error .typeError
  | _ + 1, .jbool _, _ => .error .typeError
  | _ + 1, .jnull, _ => .error .typeError

/-- find_and_process_items (source lines 28-75), at its canonical fuel. -/
def find_and_process_items (collection_item : JVal) (env_map : VarMap) :
    Except PyErr (List (JVal × String)) :=
  fapiF (jsize collection_item) collection_item env_map

/-- Fuelled traversal-safety predicate, mirroring the recursion of fapiF:
true exactly on nodes whose walk stays on the exception-free paths of
find_and_process_items (lists, dicts whose "item" list is recursively safe,
and strings not containing the substring "item"). -/
def safeTreeF : Nat → JVal → Bool
  | 0, _ => false
  | _ + 1, .jarr [] => true
  | f + 1, .jarr (it :: rest) => safeTreeF f it && safeTreeF f (.jarr rest)
  | f + 1, .jobj fields =>
      match objGet? fields "item" with
      | some (.jarr l) => safeTreeF f (.jarr l)
      | _ => true
  | _ + 1, .jstr s => !containsSub ("item".data) s.data
  | _ + 1, .jnum _ => false
  | _ + 1, .jbool _ => false
  | _ + 1, .jnull => false

/-- Traversal safety at the canonical fuel. -/
def safeTree (t : JVal) : Bool := safeTreeF (jsize t) t

/-- Fuelled count of the tree nodes whose request descriptor is extracted
successfully (the nodes that contribute a pair to the output), mirroring the
recursion of fapiF. -/
def countRequestsF : Nat → JVal → VarMap → Nat
  | 0, _, _ => 0
  | _ + 1, .jarr [], _ => 0
  | f + 1, .jarr (it :: rest), em =>
      countRequestsF f it em + countRequestsF f (.jarr rest) em
  | f + 1, .jobj fields, em =>
      (match objGet? fields "item" with
       | some (.jarr l) => countRequestsF f (.jarr l) em
       | _ => 0) + (requestPart fields em).length
  | _ + 1, .jstr _, _ => 0
  | _ + 1, .jnum _, _ => 0
  | _ + 1, .jbool _, _ => 0
  | _ + 1, .jnull, _ => 0

/-- Count of successfully extracted request nodes at the canonical fuel. -/
def countRequests (t : JVal) (em : VarMap) : Nat :=
  countRequestsF (jsize t) t em

/-- The substitution semantics stated by the spec, written from its words
(section 4.2 step b and section 3): scan the raw URL once, left to right;
each placeholder occurrence whose name is in the variable map is replaced by
that value, an occurrence whose name is absent is left verbatim, and
substituted values are never rescanned (single-pass, no recursive
re-expansion).  Used to compare the code against the spec. -/
def specSubstF (em : VarMap) : Nat → List Char → List Char
  | 0, s => s
  | _ + 1, [] => []
  | f + 1, c :: cs =>
      match matchPlaceholderAt (c :: cs) with
      | some (name, rest) =>
          (match lookupVar em name with
           | some (.jstr v) => v.data
           | _ => placeholderToken name) ++ specSubstF em f rest
      | none => c :: specSubstF em f cs

/-- Spec-side single-pass substitution at the canonical fuel. -/
def specSubstitute (raw : String) (em : VarMap) : String :=
  String.mk (specSubstF em raw.data.length raw.data)

/-- The inclusion test of source line 24 for one values entry: the entry is
a dict, its enabled flag (default False) is truthy, and both "key" and
"value" fields are present. -/
def goodEntry : JVal → Bool
  | .jobj f =>
      truthy ((objGet? f "enabled").getD (.jbool false))
        && (objGet? f "key").isSome && (objGet? f "value").isSome
  | _ => false

/-- The "key" field of a values entry. -/
def entryKey? : JVal → Option JVal
  | .jobj f => objGet? f "key"
  | _ => none

/-- The "value" field of a values entry. -/
def entryVal? : JVal → Option JVal
  | .jobj f => objGet? f "value"
  | _ => none

/-- Whether the variable map has a binding whose stored key is == to k. -/
def memVM (m : VarMap) (k : JVal) : Bool :=
  m.any (fun p => pyEqKey p.1 k)

/-- Whether a values entry passes the inclusion test and carries a key that
is == to k. -/
def entryMatches (e : JVal) (k : JVal) : Bool :=
  goodEntry e && (match entryKey? e with
                  | some kk => pyEqKey kk k
                  | none => false)

/-- The "value" field of the last entry of the values sequence that passes
the inclusion test and whose key is == to k. -/
def lastGoodBinding : List JVal → JVal → Option JVal
  | [], _ => none
  | e :: rest, k =>
      match lastGoodBinding rest k with
      | some v => some v
      | none => if entryMatches e k then entryVal? e else none

/-- Canonical form of a hashable dict key: booleans hash and compare like
the integers 0 and 1. -/
def canonKey : JVal → JVal
  | .jbool b => .jnum (if b then 1 else 0)
  | v => v

/-- Whether every character of the list may appear in a placeholder name. -/
def braceFree (l : List Char) : Bool := l.all notBrace

/-- An occurrence of t as a contiguous substring of s. -/
def occursSub (t s : List Char) : Prop := ∃ a b, s = a ++ t ++ b

theorem jsize_pos (t : JVal) : 1 ≤ jsize t := by
  cases t <;> simp only [jsize] <;> omega

theorem jsizeL_pos (l : List JVal) : 1 ≤ jsizeL l := by
  cases l <;> simp only [jsizeL] <;> omega

theorem jsizeF_pos (l : List (String × JVal)) : 1 ≤ jsizeF l := by
  cases l with
  | nil => simp only [jsizeF]; omega
  | cons p rest => obtain ⟨k, v⟩ := p; simp only [jsizeF]; omega

theorem objGet?_jsize : ∀ {fields : List (String × JVal)} {k : String} {v : JVal},
    objGet? fields k = some v → jsize v < jsizeF fields := by
  intro fields
  induction fields with
  | nil => intro k v h; simp [objGet?] at h
  | cons p rest ih =>
      intro k v h
      obtain ⟨k0, v0⟩ := p
      simp only [objGet?] at h
      by_cases hk : (k0 == k) = true
      · rw [if_pos hk] at h
        injection h with h
        subst h
        simp only [jsizeF]
        omega
      · rw [if_neg hk] at h
        have := ih h
        simp only [jsizeF]
        omega

theorem fapiF_fuel_eq : ∀ (f g : Nat) (t : JVal) (em : VarMap),
    jsize t ≤ f → jsize t ≤ g → fapiF f t em = fapiF g t em := by
  intro f
  induction f using Nat.strong_induction_on with
  | _ f ih =>
    intro g t em hf hg
    match f, g with
    | 0, _ => exact absurd hf (by have := jsize_pos t; omega)
    | _ + 1, 0 => exact absurd hg (by have := jsize_pos t; omega)
    | f + 1, g + 1 =>
      cases t with
      | jnull => rfl
      | jbool b => rfl
      | jnum n => rfl
      | jstr s => rfl
      | jarr items =>
          cases items with
          | nil => rfl
          | cons it rest =>
              have hp1 := jsize_pos it
              have hp2 := jsizeL_pos rest
              simp only [jsize, jsizeL] at hf hg
              have h1f : jsize it ≤ f := by omega
              have h1g : jsize it ≤ g := by omega
              have h2f : jsize (.jarr rest) ≤ f := by simp only [jsize]; omega
              have h2g : jsize (.jarr rest) ≤ g := by simp only [jsize]; omega
              simp only [fapiF]
              rw [ih f (Nat.lt_succ_self f) g it em h1f h1g,
                  ih f (Nat.lt_succ_self f) g (.jarr rest) em h2f h2g]
      | jobj fields =>
          simp only [jsize] at hf hg
          simp only [fapiF]
          cases hit : objGet? fields "item" with
          | none => rfl
          | some v =>
              have hb := objGet?_jsize hit
              cases v with
              | jnull => rfl
              | jbool b => rfl
              | jnum n => rfl
              | jstr s => rfl
              | jobj g2 => rfl
              | jarr l =>
                  have h1f : jsize (.jarr l) ≤ f := by omega
                  have h1g : jsize (.jarr l) ≤ g := by omega
                  have hr := ih f (Nat.lt_succ_self f) g (.jarr l) em h1f h1g
                  simp [hr]

theorem fapiF_eq_find (f : Nat) (t : JVal) (em : VarMap) (h : jsize t ≤ f) :
    fapiF f t em = find_and_process_items t em :=
  fapiF_fuel_eq f (jsize t) t em h (Nat.le_refl _)

theorem find_jarr_nil (em : VarMap) : find_and_process_items (.jarr []) em = .ok [] := rfl

theorem find_jarr_cons {it : JVal} {rest : List JVal} {em : VarMap}
    {r1 r2 : List (JVal × String)}
    (h1 : find_and_process_items it em = .ok r1)
    (h2 : find_and_process_items (.jarr rest) em = .ok r2) :
    find_and_process_items (.jarr (it :: rest)) em = .ok (r1 ++ r2) := by
  have hb1 : jsize it ≤ jsizeL (it :: rest) := by simp only [jsizeL]; omega
  have hb2 : jsize (.jarr rest) ≤ jsizeL (it :: rest) := by
    have := jsize_pos it
    simp only [jsize, jsizeL]
    omega
  show fapiF (jsizeL (it :: rest) + 1) (.jarr (it :: rest)) em = _
  simp only [fapiF]
  rw [fapiF_eq_find _ it em hb1, h1, fapiF_eq_find _ (.jarr rest) em hb2, h2]

theorem find_jobj_item {fields : List (String × JVal)} {il : List JVal} {em : VarMap}
    {cres : List (JVal × String)}
    (hit : objGet? fields "item" = some (.jarr il))
    (hc : find_and_process_items (.jarr il) em = .ok cres) :
    find_and_process_items (.jobj fields) em = .ok (cres ++ requestPart fields em) := by
  have hb : jsize (.jarr il) ≤ jsizeF fields := by
    have := objGet?_jsize hit
    omega
  have hr : fapiF (jsizeF fields) (.jarr il) em = .ok cres := by
    rw [fapiF_eq_find _ _ em hb]
    exact hc
  show fapiF (jsizeF fields + 1) (.jobj fields) em = _
  simp only [fapiF]
  rw [hit]
  simp [hr]

theorem find_jobj_noitem {fields : List (String × JVal)} {em : VarMap}
    (hit : objGet? fields "item" = none) :
    find_and_process_items (.jobj fields) em = .ok (requestPart fields em) := by
  show fapiF (jsizeF fields + 1) (.jobj fields) em = _
  simp only [fapiF]
  rw [hit]

theorem safeTreeF_ok : ∀ (f : Nat) (t : JVal) (em : VarMap),
    safeTreeF f t = true → ∃ l, fapiF f t em = .ok l := by
  intro f
  induction f with
  | zero => intro t em h; simp [safeTreeF] at h
  | succ f ih =>
      intro t em h
      cases t with
      | jnull => simp [safeTreeF] at h
      | jbool b => simp [safeTreeF] at h
      | jnum n => simp [safeTreeF] at h
      | jstr s =>
          simp only [safeTreeF, Bool.not_eq_true'] at h
          refine ⟨[], ?_⟩
          simp [fapiF, h]
      | jarr items =>
          cases items with
          | nil => exact ⟨[], rfl⟩
          | cons it rest =>
              simp only [safeTreeF, Bool.and_eq_true] at h
              obtain ⟨l1, e1⟩ := ih it em h.1
              obtain ⟨l2, e2⟩ := ih (.jarr rest) em h.2
              refine ⟨l1 ++ l2, ?_⟩
              simp only [fapiF]
              rw [e1, e2]
      | jobj fields =>
          simp only [safeTreeF] at h
          cases hit : objGet? fields "item" with
          | none =>
              refine ⟨requestPart fields em, ?_⟩
              simp only [fapiF]
              rw [hit]
          | some v =>
              rw [hit] at h
              cases v with
              | jarr l =>
                  simp only at h
                  obtain ⟨l1, e1⟩ := ih (.jarr l) em h
                  refine ⟨l1 ++ requestPart fields em, ?_⟩
                  simp only [fapiF]
                  rw [hit]
                  simp [e1]
              | jnull => exact ⟨requestPart fields em, by simp only [fapiF]; rw [hit]⟩
              | jbool b => exact ⟨requestPart fields em, by simp only [fapiF]; rw [hit]⟩
              | jnum n => exact ⟨requestPart fields em, by simp only [fapiF]; rw [hit]⟩
              | jstr s => exact ⟨requestPart fields em, by simp only [fapiF]; rw [hit]⟩
              | jobj g => exact ⟨requestPart fields em, by simp only [fapiF]; rw [hit]⟩

theorem fapiF_length : ∀ (f : Nat) (t : JVal) (em : VarMap) (l : List (JVal × String)),
    fapiF f t em = .ok l → l.length = countRequestsF f t em := by
  intro f
  induction f with
  | zero => intro t em l h; simp [fapiF] at h
  | succ f ih =>
      intro t em l h
      cases t with
      | jnull => simp [fapiF] at h
      | jbool b => simp [fapiF] at h
      | jnum n => simp [fapiF] at h
      | jstr s =>
          simp only [fapiF] at h
          by_cases hc : containsSub ("item".data) s.data = true
          · rw [if_pos hc] at h; simp at h
          · rw [if_neg hc] at h
            injection h with h
            subst h
            simp [countRequestsF]
      | jarr items =>
          cases items with
          | nil =>
              simp only [fapiF] at h
              injection h with h
              subst h
              simp [countRequestsF]
          | cons it rest =>
              simp only [fapiF] at h
              cases e1 : fapiF f it em with
              | error e => rw [e1] at h; simp at h
              | ok r1 =>
                  rw [e1] at h
                  cases e2 : fapiF f (.jarr rest) em with
                  | error e => rw [e2] at h; simp at h
                  | ok r2 =>
                      rw [e2] at h
                      simp only at h
                      injection h with h
                      subst h
                      simp only [countRequestsF]
                      rw [List.length_append, ih it em r1 e1, ih (.jarr rest) em r2 e2]
      | jobj fields =>
          simp only [fapiF] at h
          cases hit : objGet? fields "item" with
          | none =>
              rw [hit] at h
              injection h with h
              subst h
              simp [countRequestsF, hit]
          | some v =>
              rw [hit] at h
              cases v with
              | jarr il =>
                  simp only at h
                  cases e1 : fapiF f (.jarr il) em with
                  | error e => rw [e1] at h; simp at h
                  | ok r1 =>
                      rw [e1] at h
                      simp only at h
                      injection h with h
                      subst h
                      simp only [countRequestsF]
                      rw [hit]
                      rw [List.length_append, ih (.jarr il) em r1 e1]
              | jnull =>
                  injection h with h; subst h; simp [countRequestsF, hit]
              | jbool b =>
                  injection h with h; subst h; simp [countRequestsF, hit]
              | jnum n =>
                  injection h with h; subst h; simp [countRequestsF, hit]
              | jstr s =>
                  injection h with h; subst h; simp [countRequestsF, hit]
              | jobj g =>
                  injection h with h; subst h; simp [countRequestsF, hit]

theorem substLoop_typeError : ∀ (ps : List String) (resolved : List Char) (em : VarMap)
    (n : String) (v : JVal), n ∈ ps → lookupVar em n = some v → (∀ s, v ≠ .jstr s) →
    substLoop em ps resolved = .error .typeError := by
  intro ps
  induction ps with
  | nil => intro resolved em n v hmem; simp at hmem
  | cons p rest ih =>
      intro resolved em n v hmem hlk hns
      simp only [substLoop]
      cases hp : lookupVar em p with
      | none =>
          have hnp : n ≠ p := by
            intro e
            rw [e, hp] at hlk
            exact absurd hlk (by simp)
          have hmem2 : n ∈ rest := by
            cases hmem with
            | head => exact absurd rfl hnp
            | tail _ h2 => exact h2
          exact ih resolved em n v hmem2 hlk hns
      | some w =>
          cases w with
          | jstr rep =>
              have hnp : n ≠ p := by
                intro e
                rw [e, hp] at hlk
                injection hlk with h2
                exact hns rep h2.symm
              have hmem2 : n ∈ rest := by
                cases hmem with
                | head => exact absurd rfl hnp
                | tail _ h2 => exact h2
              exact ih _ em n v hmem2 hlk hns
          | jnull => rfl
          | jbool b => rfl
          | jnum m => rfl
          | jarr a => rfl
          | jobj o => rfl

theorem tryProcessRequest_badvalue {rf uf : List (String × JVal)} {raw : String}
    {em : VarMap} {n : String} {v : JVal}
    (hu : objGet? rf "url" = some (.jobj uf))
    (hr : objGet? uf "raw" = some (.jstr raw))
    (hmem : n ∈ findPlaceholders raw.data)
    (hlk : lookupVar em n = some v)
    (hns : ∀ s, v ≠ .jstr s) :
    tryProcessRequest (.jobj rf) em = none := by
  have hsub : substLoop em (findPlaceholders raw.data) raw.data = .error .typeError :=
    substLoop_typeError _ _ em n v hmem hlk hns
  have hru : resolve_url raw em = .error .typeError := by
    simp only [resolve_url]
    rw [hsub]
  simp only [tryProcessRequest]
  rw [hu]
  simp only
  rw [hr]
  simp [hru]

theorem pyEqKey_iff (a b : JVal) : pyEqKey a b = true ↔
    (hashableKey a = true ∧ hashableKey b = true ∧ canonKey a = canonKey b) := by
  cases a <;> cases b <;> simp [pyEqKey, hashableKey, canonKey, beq_iff_eq]
  rename_i x y
  cases x <;> cases y <;> simp

theorem pyEqKey_symm (a b : JVal) : pyEqKey a b = pyEqKey b a := by
  rw [Bool.eq_iff_iff, pyEqKey_iff, pyEqKey_iff]
  constructor <;> rintro ⟨h1, h2, h3⟩ <;> exact ⟨h2, h1, h3.symm⟩

theorem pyEqKey_trans {a b c : JVal} (h1 : pyEqKey a b = true)
    (h2 : pyEqKey b c = true) : pyEqKey a c = true := by
  rw [pyEqKey_iff] at h1 h2 ⊢
  exact ⟨h1.1, h2.2.1, h1.2.2.trans h2.2.2⟩

theorem lookupVM_dictInsert : ∀ (m : VarMap) (k v k' : JVal),
    lookupVM (dictInsert m k v) k' =
      if pyEqKey k k' = true then some v else lookupVM m k' := by
  intro m
  induction m with
  | nil =>
      intro k v k'
      simp [dictInsert, lookupVM]
  | cons p rest ih =>
      intro k v k'
      obtain ⟨k0, v0⟩ := p
      by_cases h0 : pyEqKey k0 k = true
      · by_cases h1 : pyEqKey k0 k' = true
        · have hk : pyEqKey k k' = true :=
            pyEqKey_trans (by rw [pyEqKey_symm]; exact h0) h1
          simp [dictInsert, lookupVM, h0, h1, hk]
        · have hk : pyEqKey k k' = false := by
            rw [← Bool.not_eq_true]
            intro h2
            exact h1 (pyEqKey_trans h0 h2)
          rw [Bool.not_eq_true] at h1
          simp [dictInsert, lookupVM, h0, h1, hk]
      · rw [Bool.not_eq_true] at h0
        by_cases h1 : pyEqKey k0 k' = true
        · have hk : pyEqKey k k' = false := by
            rw [← Bool.not_eq_true]
            intro h2
            have h3 : pyEqKey k0 k = true :=
              pyEqKey_trans h1 (by rw [pyEqKey_symm]; exact h2)
            simp [h3] at h0
          simp [dictInsert, lookupVM, h0, h1, hk]
        · rw [Bool.not_eq_true] at h1
          simp [dictInsert, lookupVM, h0, h1, ih]

theorem memVM_dictInsert : ∀ (m : VarMap) (k v k' : JVal),
    memVM (dictInsert m k v) k' = (pyEqKey k k' || memVM m k') := by
  intro m
  induction m with
  | nil =>
      intro k v k'
      simp [dictInsert, memVM]
  | cons p rest ih =>
      intro k v k'
      obtain ⟨k0, v0⟩ := p
      by_cases h0 : pyEqKey k0 k = true
      · have he : pyEqKey k k' = pyEqKey k0 k' := by
          rw [Bool.eq_iff_iff]
          constructor
          · intro h2
            exact pyEqKey_trans h0 h2
          · intro h2
            exact pyEqKey_trans (by rw [pyEqKey_symm]; exact h0) h2
        rw [he]
        cases hx : pyEqKey k0 k' <;> simp [dictInsert, memVM, h0, hx]
      · rw [Bool.not_eq_true] at h0
        have ih2 := ih k v k'
        simp only [memVM] at ih2
        simp [dictInsert, memVM, h0, ih2, Bool.or_left_comm]

theorem objGet?_isSome_any : ∀ (fields : List (String × JVal)) (k : String),
    (objGet? fields k).isSome = fields.any (fun f => f.1 == k) := by
  intro fields
  induction fields with
  | nil => intro k; simp [objGet?]
  | cons p rest ih =>
      intro k
      obtain ⟨k0, v0⟩ := p
      by_cases h : (k0 == k) = true
      · simp [objGet?, h]
      · rw [Bool.not_eq_true] at h
        simp [objGet?, h, ih]

theorem gemLoop_ok_mem : ∀ (vs : List JVal) (acc m : VarMap), gemLoop acc vs = .ok m →
    ∀ k, memVM m k = true ↔
      (memVM acc k = true ∨ ∃ e ∈ vs, entryMatches e k = true) := by
  intro vs
  induction vs with
  | nil =>
      intro acc m h k
      simp only [gemLoop] at h
      injection h with h
      subst h
      simp
  | cons e rest ih =>
      intro acc m h k
      simp only [gemLoop] at h
      cases hp : processEntry acc e with
      | error er => rw [hp] at h; simp at h
      | ok acc2 =>
          rw [hp] at h
          simp only at h
          have ihh := ih acc2 m h k
          cases e with
          | jnull => simp [processEntry] at hp
          | jbool b => simp [processEntry] at hp
          | jnum n => simp [processEntry] at hp
          | jstr s => simp [processEntry] at hp
          | jarr a => simp [processEntry] at hp
          | jobj f =>
              simp only [processEntry] at hp
              by_cases hcond : (truthy ((objGet? f "enabled").getD (.jbool false))
                  && (objGet? f "key").isSome && (objGet? f "value").isSome) = true
              · rw [if_pos hcond] at hp
                have hks : (objGet? f "key").isSome = true := by
                  simp only [Bool.and_eq_true] at hcond
                  exact hcond.1.2
                have hvs : (objGet? f "value").isSome = true := by
                  simp only [Bool.and_eq_true] at hcond
                  exact hcond.2
                obtain ⟨kk, hkk⟩ := Option.isSome_iff_exists.mp hks
                obtain ⟨vv, hvv⟩ := Option.isSome_iff_exists.mp hvs
                rw [hkk, hvv] at hp
                simp only at hp
                by_cases hh : hashableKey kk = true
                · rw [if_pos hh] at hp
                  injection hp with hp
                  subst hp
                  rw [memVM_dictInsert] at ihh
                  have hand := hcond
                  simp only [Bool.and_eq_true] at hand
                  have hm : entryMatches (.jobj f) k = pyEqKey kk k := by
                    simp [entryMatches, goodEntry, entryKey?, hkk, hand.1.1, hks, hvs]
                  rw [ihh]
                  simp only [List.mem_cons, Bool.or_eq_true]
                  constructor
                  · rintro (⟨h2 | h2⟩ | h2)
                    · exact Or.inr ⟨.jobj f, Or.inl rfl, by rw [hm]; exact h2⟩
                    · exact Or.inl h2
                    · obtain ⟨e2, he2, hme2⟩ := h2
                      exact Or.inr ⟨e2, Or.inr he2, hme2⟩
                  · rintro (h2 | ⟨e2, he2 | he2, hme2⟩)
                    · exact Or.inl (Or.inr h2)
                    · subst he2
                      rw [hm] at hme2
                      exact Or.inl (Or.inl hme2)
                    · exact Or.inr ⟨e2, he2, hme2⟩
                · rw [if_neg hh] at hp
                  simp at hp
              · rw [if_neg hcond] at hp
                injection hp with hp
                subst hp
                rw [Bool.not_eq_true] at hcond
                have hm : entryMatches (.jobj f) k = false := by
                  simp only [entryMatches, goodEntry, hcond, Bool.false_and]
                rw [ihh]
                simp [hm]

theorem gem_jobj_values {fields : List (String × JVal)} {vs : List JVal}
    (hv : objGet? fields "values" = some (.jarr vs)) :
    get_environment_map (.jobj fields) = gemLoop [] vs := by
  have hany : (fields.any (fun f => f.1 == "values")) = true := by
    rw [← objGet?_isSome_any, hv]
    rfl
  simp only [get_environment_map, pyContains]
  rw [hany]
  simp only [pyIndexStr]
  rw [hv]

theorem gemLoop_ok_lookup : ∀ (vs : List JVal) (acc m : VarMap), gemLoop acc vs = .ok m →
    ∀ k, lookupVM m k = (match lastGoodBinding vs k with
                         | some v => some v
                         | none => lookupVM acc k) := by
  intro vs
  induction vs with
  | nil =>
      intro acc m h k
      simp only [gemLoop] at h
      injection h with h
      subst h
      simp [lastGoodBinding]
  | cons e rest ih =>
      intro acc m h k
      simp only [gemLoop] at h
      cases hp : processEntry acc e with
      | error er => rw [hp] at h; simp at h
      | ok acc2 =>
          rw [hp] at h
          simp only at h
          have ihh := ih acc2 m h k
          simp only [lastGoodBinding]
          cases hlast : lastGoodBinding rest k with
          | some v =>
              rw [hlast] at ihh
              simp only at ihh
              exact ihh
          | none =>
              rw [hlast] at ihh
              simp only at ihh
              show lookupVM m k =
                (match (if entryMatches e k = true then entryVal? e else none) with
                 | some v => some v
                 | none => lookupVM acc k)
              cases e with
              | jnull => simp [processEntry] at hp
              | jbool b => simp [processEntry] at hp
              | jnum n => simp [processEntry] at hp
              | jstr s => simp [processEntry] at hp
              | jarr a => simp [processEntry] at hp
              | jobj f =>
                  simp only [processEntry] at hp
                  by_cases hcond : (truthy ((objGet? f "enabled").getD (.jbool false))
                      && (objGet? f "key").isSome && (objGet? f "value").isSome) = true
                  · rw [if_pos hcond] at hp
                    have hand := hcond
                    simp only [Bool.and_eq_true] at hand
                    obtain ⟨kk, hkk⟩ := Option.isSome_iff_exists.mp hand.1.2
                    obtain ⟨vv, hvv⟩ := Option.isSome_iff_exists.mp hand.2
                    rw [hkk, hvv] at hp
                    simp only at hp
                    by_cases hh : hashableKey kk = true
                    · rw [if_pos hh] at hp
                      injection hp with hp
                      subst hp
                      rw [lookupVM_dictInsert] at ihh
                      have hm : entryMatches (.jobj f) k = pyEqKey kk k := by
                        simp [entryMatches, goodEntry, entryKey?, hkk, hand.1.1,
                          hand.1.2, hand.2]
                      have hval : entryVal? (.jobj f) = some vv := by
                        simp [entryVal?, hvv]
                      rw [hm, hval]
                      by_cases hky : pyEqKey kk k = true
                      · rw [if_pos hky] at ihh
                        rw [if_pos hky]
                        exact ihh
                      · rw [if_neg hky] at ihh
                        rw [if_neg hky]
                        exact ihh
                    · rw [if_neg hh] at hp
                      simp at hp
                  · rw [if_neg hcond] at hp
                    injection hp with hp
                    subst hp
                    rw [Bool.not_eq_true] at hcond
                    have hm : entryMatches (.jobj f) k = false := by
                      simp only [entryMatches, goodEntry, hcond, Bool.false_and]
                    rw [hm]
                    simp only [Bool.false_eq_true, if_false]
                    exact ihh

theorem occursSub_append_left {t s : List Char} (pre : List Char)
    (h : occursSub t s) : occursSub t (pre ++ s) := by
  obtain ⟨a, b, rfl⟩ := h
  exact ⟨pre ++ a, b, by simp⟩

theorem occursSub_cons {t s : List Char} (c : Char)
    (h : occursSub t s) : occursSub t (c :: s) := by
  obtain ⟨a, b, rfl⟩ := h
  exact ⟨c :: a, b, by simp⟩

theorem append_split {a b c d : List Char} (h : a ++ b = c ++ d)
    (hl : c.length ≤ a.length) : ∃ m, a = c ++ m ∧ d = m ++ b := by
  rw [List.append_eq_append_iff] at h
  rcases h with ⟨m, h1, h2⟩ | h
  · subst h1
    rw [List.length_append] at hl
    have hm : m = [] := by
      cases m with
      | nil => rfl
      | cons x xs => simp at hl
    subst hm
    exact ⟨[], by simp, by simpa using h2.symm⟩
  · exact h

theorem startsWithL_iff : ∀ (p s : List Char),
    startsWithL p s = true ↔ ∃ rest, s = p ++ rest := by
  intro p
  induction p with
  | nil => intro s; simp [startsWithL]
  | cons x ps ih =>
      intro s
      cases s with
      | nil => simp [startsWithL]
      | cons c cs =>
          simp only [startsWithL, Bool.and_eq_true, beq_iff_eq, ih cs]
          constructor
          · rintro ⟨rfl, rest, rfl⟩
            exact ⟨rest, rfl⟩
          · rintro ⟨rest, h⟩
            injection h with h1 h2
            exact ⟨h1.symm, rest, h2⟩

theorem replaceAllF_fuel : ∀ (pat rep : List Char) (f g : Nat) (s : List Char),
    s.length ≤ f → s.length ≤ g → replaceAllF pat rep f s = replaceAllF pat rep g s := by
  intro pat rep f
  induction f using Nat.strong_induction_on with
  | _ f ih =>
    intro g s hf hg
    match f, g, s with
    | 0, 0, [] => rfl
    | 0, _ + 1, [] => rfl
    | _ + 1, 0, [] => rfl
    | _ + 1, _ + 1, [] => rfl
    | 0, _, c :: cs => simp at hf
    | _ + 1, 0, c :: cs => simp at hg
    | f + 1, g + 1, c :: cs =>
      simp only [List.length_cons] at hf hg
      simp only [replaceAllF]
      by_cases hm : (!pat.isEmpty && startsWithL pat (c :: cs)) = true
      · rw [if_pos hm, if_pos hm]
        have hlen : (List.drop (pat.length - 1) cs).length ≤ f := by
          rw [List.length_drop]
          omega
        have hlen2 : (List.drop (pat.length - 1) cs).length ≤ g := by
          rw [List.length_drop]
          omega
        rw [ih f (Nat.lt_succ_self f) g _ hlen hlen2]
      · rw [if_neg hm, if_neg hm]
        rw [ih f (Nat.lt_succ_self f) g cs (by omega) (by omega)]

theorem braceFree_cons (c : Char) (l : List Char) :
    braceFree (c :: l) = (notBrace c && braceFree l) := rfl

theorem braceFree_mem {l : List Char} {ch : Char} (h : braceFree l = true)
    (hm : ch ∈ l) : notBrace ch = true := by
  rw [braceFree, List.all_eq_true] at h
  exact h ch hm

theorem notBrace_ne {ch : Char} (h : notBrace ch = true) : ch ≠ '{' ∧ ch ≠ '}' := by
  rw [notBrace, Bool.and_eq_true, bne_iff_ne, bne_iff_ne] at h
  exact h

theorem name_append_eq : ∀ (nA c x y : List Char), braceFree nA = true →
    braceFree c = true → nA ++ '}' :: '}' :: x = c ++ '}' :: '}' :: y → nA = c := by
  intro nA
  induction nA with
  | nil =>
      intro c x y _ hc h
      cases c with
      | nil => rfl
      | cons ch c' =>
          rw [List.nil_append, List.cons_append] at h
          injection h with h1 h2
          rw [braceFree_cons, Bool.and_eq_true] at hc
          exact absurd (h1 ▸ hc.1) (by simp [notBrace])
  | cons a nA' ih =>
      intro c x y hA hc h
      cases c with
      | nil =>
          rw [List.cons_append, List.nil_append] at h
          injection h with h1 h2
          rw [braceFree_cons, Bool.and_eq_true] at hA
          exact absurd (h1 ▸ hA.1) (by simp [notBrace])
      | cons ch c' =>
          rw [List.cons_append, List.cons_append] at h
          injection h with h1 h2
          rw [braceFree_cons, Bool.and_eq_true] at hA hc
          have h3 := ih c' x y hA.2 hc.2 h2
          rw [h1, h3]

theorem startsWith_name_token_false : ∀ (nA c b : List Char),
    braceFree nA = true → braceFree c = true → nA ≠ c →
    startsWithL (nA ++ ['}', '}']) (c ++ '}' :: '}' :: b) = false := by
  intro nA
  induction nA with
  | nil =>
      intro c b _ hc hne
      cases c with
      | nil => exact absurd rfl hne
      | cons ch c' =>
          rw [braceFree_cons, Bool.and_eq_true] at hc
          have h2 := (notBrace_ne hc.1).2
          rw [List.nil_append, List.cons_append, startsWithL]
          have : ('}' == ch) = false := by
            rw [beq_eq_false_iff_ne]
            exact fun e => h2 e.symm
          rw [this, Bool.false_and]
  | cons a nA' ih =>
      intro c b hA hc hne
      rw [braceFree_cons, Bool.and_eq_true] at hA
      cases c with
      | nil =>
          have h2 := (notBrace_ne hA.1).2
          rw [List.nil_append, List.cons_append, startsWithL]
          have : (a == '}') = false := by
            rw [beq_eq_false_iff_ne]
            exact h2
          rw [this, Bool.false_and]
      | cons ch c' =>
          rw [braceFree_cons, Bool.and_eq_true] at hc
          rw [List.cons_append, List.cons_append, startsWithL]
          by_cases he : a = ch
          · subst he
            have hne2 : nA' ≠ c' := by
              intro e
              exact hne (by rw [e])
            rw [ih c' b hA.2 hc.2 hne2, Bool.and_false]
          · have : (a == ch) = false := by
              rw [beq_eq_false_iff_ne]
              exact he
            rw [this, Bool.false_and]

theorem brace_pos_aux : ∀ (a' nA w rest : List Char), braceFree nA = true →
    a' ++ '{' :: w = nA ++ '}' :: '}' :: rest → nA.length + 2 ≤ a'.length := by
  intro a'
  induction a' with
  | nil =>
      intro nA w rest hA h
      cases nA with
      | nil =>
          rw [List.nil_append, List.nil_append] at h
          injection h with h1 h2
          simp at h1
      | cons ch nA' =>
          rw [List.nil_append, List.cons_append] at h
          injection h with h1 h2
          rw [braceFree_cons, Bool.and_eq_true] at hA
          exact absurd (h1 ▸ hA.1) (by simp [notBrace])
  | cons x a'' ih =>
      intro nA w rest hA h
      cases nA with
      | nil =>
          rw [List.cons_append, List.nil_append] at h
          injection h with h1 h2
          cases a'' with
          | nil =>
              rw [List.nil_append] at h2
              injection h2 with h3 h4
              simp at h3
          | cons y a''' => simp
      | cons ch nA' =>
          rw [List.cons_append, List.cons_append] at h
          injection h with h1 h2
          rw [braceFree_cons, Bool.and_eq_true] at hA
          have := ih nA' w rest hA.2 h2
          simp only [List.length_cons]
          omega

theorem no_match_inside : ∀ (u v b nA c : List Char),
    braceFree nA = true → braceFree c = true → c ≠ [] → nA ≠ c →
    u ++ v = '{' :: '{' :: (c ++ ['}', '}']) → v ≠ [] →
    startsWithL ('{' :: '{' :: (nA ++ ['}', '}'])) (v ++ b) = false := by
  intro u v b nA c hA hc hcne hne hu hv
  cases u with
  | nil =>
      rw [List.nil_append] at hu
      subst hu
      simp only [List.cons_append, startsWithL, List.append_eq, List.append_assoc,
        List.nil_append]
      rw [startsWith_name_token_false nA c b hA hc hne]
      simp
  | cons x u1 =>
      cases u1 with
      | nil =>
          rw [List.cons_append, List.nil_append] at hu
          injection hu with h1 h2
          subst h2
          cases c with
          | nil => exact absurd rfl hcne
          | cons ch c' =>
              have hch := (notBrace_ne (braceFree_mem hc (List.mem_cons_self ch c'))).1
              simp only [List.cons_append, startsWithL]
              have : ('{' == ch) = false := by
                rw [beq_eq_false_iff_ne]
                exact fun e => hch e.symm
              rw [this]
              simp
      | cons y u2 =>
          rw [List.cons_append, List.cons_append] at hu
          injection hu with h1 hu
          injection hu with h2 hu
          cases v with
          | nil => exact absurd rfl hv
          | cons ch v' =>
              have hmem : ch ∈ c ++ ['}', '}'] := by
                rw [← hu]
                exact List.mem_append_right u2 (List.mem_cons_self ch v')
              have hch : ch ≠ '{' := by
                rcases List.mem_append.mp hmem with hm | hm
                · exact (notBrace_ne (braceFree_mem hc hm)).1
                · have h3 : ch = '}' := by simpa using hm
                  rw [h3]
                  decide
              simp only [List.cons_append, startsWithL]
              have : ('{' == ch) = false := by
                rw [beq_eq_false_iff_ne]
                exact fun e => hch e.symm
              rw [this]
              simp

theorem replaceAll_copies_token : ∀ (nA c rep : List Char),
    braceFree nA = true → braceFree c = true → c ≠ [] → nA ≠ c →
    ∀ (v u b : List Char) (f : Nat),
      u ++ v = '{' :: '{' :: (c ++ ['}', '}']) → (v ++ b).length ≤ f →
      replaceAllF ('{' :: '{' :: (nA ++ ['}', '}'])) rep f (v ++ b) =
        v ++ replaceAllF ('{' :: '{' :: (nA ++ ['}', '}'])) rep b.length b := by
  intro nA c rep hA hc hcne hne v
  induction v with
  | nil =>
      intro u b f hu hf
      rw [List.nil_append] at hf ⊢
      exact replaceAllF_fuel _ rep f b.length b hf (Nat.le_refl _)
  | cons ch v' ih =>
      intro u b f hu hf
      match f with
      | 0 => simp at hf
      | f + 1 =>
          have hsw : startsWithL ('{' :: '{' :: (nA ++ ['}', '}'])) ((ch :: v') ++ b) = false :=
            no_match_inside u (ch :: v') b nA c hA hc hcne hne hu (by simp)
          rw [List.cons_append] at hsw ⊢
          simp only [replaceAllF, List.isEmpty_cons, Bool.not_false, Bool.true_and]
          rw [hsw]
          simp only [Bool.false_eq_true, if_false]
          rw [ih (u ++ [ch]) b f
            (by rw [List.append_assoc]; simpa using hu)
            (by simp only [List.cons_append, List.length_cons] at hf; omega)]
          rw [List.cons_append]

theorem replaceAllF_preserves : ∀ (nA c rep : List Char),
    braceFree nA = true → braceFree c = true → c ≠ [] → nA ≠ c →
    ∀ (f : Nat) (s : List Char), s.length ≤ f →
    occursSub ('{' :: '{' :: (c ++ ['}', '}'])) s →
    occursSub ('{' :: '{' :: (c ++ ['}', '}']))
      (replaceAllF ('{' :: '{' :: (nA ++ ['}', '}'])) rep f s) := by
  intro nA c rep hA hc hcne hne f
  induction f using Nat.strong_induction_on with
  | _ f ih =>
    intro s hf hocc
    obtain ⟨a, b, rfl⟩ := hocc
    cases a with
    | nil =>
        rw [List.nil_append] at hf ⊢
        rw [replaceAll_copies_token nA c rep hA hc hcne hne _ [] b f
          (by rw [List.nil_append]) hf]
        exact ⟨[], _, rfl⟩
    | cons x a' =>
        match f with
        | 0 => exact absurd hf (by simp)
        | f + 1 =>
            rw [List.cons_append, List.cons_append] at hf ⊢
            simp only [replaceAllF, List.isEmpty_cons, Bool.not_false, Bool.true_and]
            by_cases hm : startsWithL ('{' :: '{' :: (nA ++ ['}', '}']))
                (x :: (a' ++ ('{' :: '{' :: (c ++ ['}', '}'])) ++ b)) = true
            · rw [if_pos hm]
              rw [startsWithL_iff] at hm
              obtain ⟨rest, hrest⟩ := hm
              rw [List.cons_append] at hrest
              injection hrest with hx hrest
              have hdrop : List.drop (('{' :: '{' :: (nA ++ ['}', '}'])).length - 1)
                  (a' ++ ('{' :: '{' :: (c ++ ['}', '}'])) ++ b) = rest := by
                rw [hrest]
                have e1 : ('{' :: '{' :: (nA ++ ['}', '}'])).length - 1
                    = (nA ++ ['}', '}']).length + 1 := by
                  simp
                rw [e1, List.cons_append, List.drop_succ_cons, List.drop_left]
              have hrl : rest.length ≤ f := by
                have h5 := congrArg List.length hrest
                simp only [List.length_append, List.length_cons] at h5 hf
                omega
              have hoccrest : occursSub ('{' :: '{' :: (c ++ ['}', '}'])) rest := by
                rw [List.cons_append] at hrest
                cases a' with
                | nil =>
                    rw [List.nil_append, List.cons_append] at hrest
                    injection hrest with h6 h7
                    rw [List.cons_append] at h7
                    cases nA with
                    | nil =>
                        rw [List.nil_append] at h7
                        injection h7 with h8 h9
                        exact absurd h8 (by decide)
                    | cons ah nA' =>
                        rw [List.cons_append] at h7
                        injection h7 with h8 h9
                        rw [braceFree_cons, Bool.and_eq_true] at hA
                        exact absurd (h8 ▸ hA.1) (by simp [notBrace])
                | cons y a'' =>
                    rw [List.cons_append, List.cons_append] at hrest
                    injection hrest with h6 h7
                    have h3 : a'' ++ '{' :: (('{' :: (c ++ ['}', '}'])) ++ b)
                        = nA ++ '}' :: '}' :: rest := by
                      rw [List.append_assoc] at h7
                      rw [List.append_assoc] at h7
                      simpa [List.cons_append] using h7
                    have hlen := brace_pos_aux a'' nA _ rest hA h3
                    have hsplit := @append_split a''
                      (('{' :: '{' :: (c ++ ['}', '}'])) ++ b)
                      (nA ++ ['}', '}']) rest
                      (by rw [← List.append_assoc]; exact h7)
                      (by simp only [List.length_append, List.length_cons,
                            List.length_nil]; omega)
                    obtain ⟨m, hm1, hm2⟩ := hsplit
                    exact ⟨m, b, by rw [List.append_assoc]; exact hm2⟩
              rw [hdrop]
              exact occursSub_append_left rep (ih f (Nat.lt_succ_self f) rest hrl hoccrest)
            · rw [if_neg hm]
              have hl2 : (a' ++ ('{' :: '{' :: (c ++ ['}', '}'])) ++ b).length ≤ f := by
                simp only [List.length_cons] at hf
                omega
              exact occursSub_cons x
                (ih f (Nat.lt_succ_self f) _ hl2 ⟨a', b, rfl⟩)

theorem matchPlaceholderAt_name : ∀ (s : List Char) (n : String) (rest : List Char),
    matchPlaceholderAt s = some (n, rest) → n.data ≠ [] ∧ braceFree n.data = true := by
  intro s n rest h
  match s with
  | [] => simp [matchPlaceholderAt] at h
  | [c1] => simp [matchPlaceholderAt] at h
  | c1 :: c2 :: r =>
      simp only [matchPlaceholderAt] at h
      by_cases h1 : c1 = '{' ∧ c2 = '{'
      · rw [if_pos h1] at h
        cases hname : r.takeWhile notBrace with
        | nil => rw [hname] at h; simp at h
        | cons nc nr =>
            rw [hname] at h
            cases hafter : r.dropWhile notBrace with
            | nil => rw [hafter] at h; simp at h
            | cons a1 r2 =>
                cases r2 with
                | nil => rw [hafter] at h; simp at h
                | cons a2 tail =>
                    rw [hafter] at h
                    simp only at h
                    by_cases h2 : a1 = '}' ∧ a2 = '}'
                    · rw [if_pos h2] at h
                      injection h with h
                      injection h with h3 h4
                      subst h3
                      constructor
                      · simp
                      · show braceFree (nc :: nr) = true
                        rw [braceFree, List.all_eq_true]
                        intro ch hch
                        exact List.mem_takeWhile_imp (hname ▸ hch)
                    · rw [if_neg h2] at h
                      simp at h
      · rw [if_neg h1] at h
        simp at h

theorem findPlaceholders_names : ∀ (f : Nat) (s : List Char) (n : String),
    n ∈ findPlaceholdersF f s → n.data ≠ [] ∧ braceFree n.data = true := by
  intro f
  induction f with
  | zero => intro s n h; simp [findPlaceholdersF] at h
  | succ f ih =>
      intro s n h
      cases s with
      | nil => simp [findPlaceholdersF] at h
      | cons c cs =>
          simp only [findPlaceholdersF] at h
          cases hmp : matchPlaceholderAt (c :: cs) with
          | none => rw [hmp] at h; exact ih cs n h
          | some pr =>
              obtain ⟨name, rest⟩ := pr
              rw [hmp] at h
              simp only [List.mem_cons] at h
              cases h with
              | inl h2 => exact h2 ▸ matchPlaceholderAt_name _ _ _ hmp
              | inr h2 => exact ih rest n h2

theorem substLoop_preserves : ∀ (ps : List String) (em : VarMap) (c : String)
    (s out : List Char),
    (∀ n ∈ ps, n.data ≠ [] ∧ braceFree n.data = true) →
    braceFree c.data = true → c.data ≠ [] →
    lookupVar em c = none →
    occursSub (placeholderToken c) s →
    substLoop em ps s = .ok out →
    occursSub (placeholderToken c) out := by
  intro ps
  induction ps with
  | nil =>
      intro em c s out _ _ _ _ hocc h
      simp only [substLoop] at h
      injection h with h
      subst h
      exact hocc
  | cons p rest ih =>
      intro em c s out hwf hbc hcne hlk hocc h
      simp only [substLoop] at h
      cases hp : lookupVar em p with
      | none =>
          rw [hp] at h
          simp only at h
          exact ih em c s out (fun n hn => hwf n (List.mem_cons_of_mem p hn))
            hbc hcne hlk hocc h
      | some w =>
          rw [hp] at h
          cases w with
          | jstr rep =>
              simp only at h
              have hpnc : p ≠ c := by
                intro e
                rw [e, hlk] at hp
                exact Option.noConfusion hp
              have hpd : p.data ≠ c.data := by
                intro e
                exact hpnc (by cases p; cases c; exact congrArg String.mk e)
              have hwp := hwf p (List.mem_cons_self p rest)
              have hocc2 : occursSub (placeholderToken c)
                  (replaceAll (placeholderToken p) rep.data s) :=
                replaceAllF_preserves p.data c.data rep.data hwp.2 hbc hcne hpd
                  s.length s (Nat.le_refl _) hocc
              exact ih em c _ out (fun n hn => hwf n (List.mem_cons_of_mem p hn))
                hbc hcne hlk hocc2 h
          | jnull => simp at h
          | jbool b => simp at h
          | jnum m => simp at h
          | jarr a => simp at h
          | jobj o => simp at h

theorem resolve_url_preserves (raw : String) (em : VarMap) (c : String) (out : String)
    (hbc : braceFree c.data = true) (hcne : c.data ≠ [])
    (hlk : lookupVar em c = none)
    (hocc : occursSub (placeholderToken c) raw.data)
    (h : resolve_url raw em = .ok out) :
    occursSub (placeholderToken c) out.data := by
  simp only [resolve_url] at h
  cases hs : substLoop em (findPlaceholders raw.data) raw.data with
  | error e => rw [hs] at h; simp at h
  | ok resolved =>
      rw [hs] at h
      simp only at h
      injection h with h
      subst h
      exact substLoop_preserves _ em c raw.data resolved
        (fun n hn => findPlaceholders_names _ _ n hn) hbc hcne hlk hocc hs
/-- C1 counterexample: with raw URL consisting of the same placeholder twice
and a mapped value that itself contains that placeholder token, the code
re-expands the substituted value (the placeholder list is per occurrence, so
the second pass rewrites the token injected by the first), while single-pass
substitution would leave it intact. -/
theorem C1_counterexample :
    resolve_url "\x7b\x7ba\x7d\x7d\x7b\x7ba\x7d\x7d"
        [(.jstr "a", .jstr "<\x7b\x7ba\x7d\x7d>")]
      = .ok "<<\x7b\x7ba\x7d\x7d>><<\x7b\x7ba\x7d\x7d>>" ∧
    specSubstitute "\x7b\x7ba\x7d\x7d\x7b\x7ba\x7d\x7d"
        [(.jstr "a", .jstr "<\x7b\x7ba\x7d\x7d>")]
      = "<\x7b\x7ba\x7d\x7d><\x7b\x7ba\x7d\x7d>" ∧
    ("<<\x7b\x7ba\x7d\x7d>><<\x7b\x7ba\x7d\x7d>>" : String)
      ≠ "<\x7b\x7ba\x7d\x7d><\x7b\x7ba\x7d\x7d>" :=
  ⟨rfl, rfl, by decide⟩

/-- C1 (amended): substitution runs one replacement pass per element of the
placeholder list of the original raw URL; when that list has exactly one
element, the substituted value is never re-expanded: the result is exactly
one textual replacement of the token, even if the value contains placeholder
tokens. -/
theorem C1_single_pass (raw : String) (em : VarMap) (n rep : String)
    (h1 : findPlaceholders raw.data = [n])
    (h2 : lookupVar em n = some (.jstr rep)) :
    resolve_url raw em =
      .ok (String.mk (replaceAll (placeholderToken n) rep.data raw.data)) := by
  simp only [resolve_url, h1, substLoop, h2]

/-- C1 witness: one placeholder, value containing a token: no re-expansion. -/
theorem C1_witness :
    resolve_url "x\x7b\x7ba\x7d\x7dy" [(.jstr "a", .jstr "\x7b\x7bb\x7d\x7d")] =
      .ok (String.mk (replaceAll (placeholderToken "a")
        ("\x7b\x7bb\x7d\x7d").data ("x\x7b\x7ba\x7d\x7dy").data)) :=
  C1_single_pass "x\x7b\x7ba\x7d\x7dy" [(.jstr "a", .jstr "\x7b\x7bb\x7d\x7d")]
    "a" "\x7b\x7bb\x7d\x7d" rfl rfl

/-- C2 counterexample: a tree containing a malformed sub-item of
non-iterable type (None) makes the membership test of source line 50 raise
TypeError, aborting the whole walk instead of skipping the item. -/
theorem C2_counterexample :
    find_and_process_items (.jarr [.jnull]) [] = .error .typeError := rfl

/-- C2 (amended): the walk never raises on trees whose nodes are lists,
dicts (with recursively safe "item" lists) or strings not containing the
substring "item"; malformed dict items are skipped.  Nodes of other types
raise TypeError and abort the walk. -/
theorem C2_total_on_safe (t : JVal) (em : VarMap) (h : safeTree t = true) :
    ∃ l, find_and_process_items t em = .ok l :=
  safeTreeF_ok (jsize t) t em h

/-- C2 witness: a safe tree with a malformed dict item resolves without
raising. -/
theorem C2_witness :
    ∃ l, find_and_process_items
      (.jarr [.jobj [("foo", .jnull)], .jstr "hello"]) [] = .ok l :=
  C2_total_on_safe (.jarr [.jobj [("foo", .jnull)], .jstr "hello"]) [] rfl

/-- C3 counterexample: an environment document whose values sequence holds a
non-dict entry (None) makes item.get of source line 24 raise AttributeError
instead of being skipped. -/
theorem C3_counterexample :
    get_environment_map (.jobj [("values", .jarr [.jnull])])
      = .error .attributeError := rfl

/-- C3 (amended): for every dict environment document where the values
field is absent or not a sequence, get_environment_map returns the empty
map without raising; totality fails only inside a values sequence, where a
non-dict entry raises AttributeError (and an unhashable key TypeError). -/
theorem C3_empty_map (fields : List (String × JVal))
    (h : ∀ l, objGet? fields "values" ≠ some (.jarr l)) :
    get_environment_map (.jobj fields) = .ok [] := by
  cases hv : objGet? fields "values" with
  | none =>
      have hany : (fields.any (fun f => f.1 == "values")) = false := by
        rw [← objGet?_isSome_any, hv]
        rfl
      simp only [get_environment_map, pyContains]
      rw [hany]
  | some v =>
      have hany : (fields.any (fun f => f.1 == "values")) = true := by
        rw [← objGet?_isSome_any, hv]
        rfl
      simp only [get_environment_map, pyContains]
      rw [hany]
      simp only [pyIndexStr]
      rw [hv]
      cases v with
      | jarr l => exact absurd hv (by intro h2; exact h l h2)
      | jnull => rfl
      | jbool b => rfl
      | jnum n => rfl
      | jstr s => rfl
      | jobj g => rfl

/-- C3 witness: a document whose values field is a string yields the empty
map. -/
theorem C3_witness :
    get_environment_map (.jobj [("values", .jstr "zz")]) = .ok [] :=
  C3_empty_map [("values", .jstr "zz")] (by intro l h; simp [objGet?] at h)

/-- C4 counterexample: sequential global replacement can merge a substituted
value with surrounding text into a new token that a later pass also
replaces: raw URL \x7b\x7bx\x7b\x7bb\x7d\x7dy\x7d\x7d\x7b\x7bxAy\x7d\x7d
with map (b to A, xAy to V) resolves to VV, while replacing every
placeholder occurrence by its value and leaving the rest verbatim yields a
different URL. -/
theorem C4_counterexample :
    resolve_url "\x7b\x7bx\x7b\x7bb\x7d\x7dy\x7d\x7d\x7b\x7bxAy\x7d\x7d"
        [(.jstr "b", .jstr "A"), (.jstr "xAy", .jstr "V")] = .ok "VV" ∧
    specSubstitute "\x7b\x7bx\x7b\x7bb\x7d\x7dy\x7d\x7d\x7b\x7bxAy\x7d\x7d"
        [(.jstr "b", .jstr "A"), (.jstr "xAy", .jstr "V")]
      = "\x7b\x7bxAy\x7d\x7dV" ∧
    ("VV" : String) ≠ "\x7b\x7bxAy\x7d\x7dV" :=
  ⟨rfl, rfl, by decide⟩

/-- C4 (amended): the stated example resolutions hold, and every placeholder
token whose name (non-empty, brace-free) is not a key of the map still
occurs verbatim in the output URL.  The code applies one global textual
replacement per discovered placeholder in discovery order, and a
replacement can merge with surrounding text into a new token that a later
pass rewrites, so an in-map occurrence is not always replaced by exactly
its value (see the counterexample). -/
theorem C4_substitution :
    (resolve_url "\x7b\x7bhost\x7d\x7d/v1/\x7b\x7bid\x7d\x7d/\x7b\x7bid\x7d\x7d"
        [(.jstr "host", .jstr "api.example.com"), (.jstr "id", .jstr "42")]
      = .ok "api.example.com/v1/42/42" ∧
     resolve_url "\x7b\x7bbase\x7d\x7d/x" [] = .ok "\x7b\x7bbase\x7d\x7d/x") ∧
    (∀ (raw : String) (em : VarMap) (c : String) (out : String),
        braceFree c.data = true → c.data ≠ [] →
        lookupVar em c = none →
        occursSub (placeholderToken c) raw.data →
        resolve_url raw em = .ok out →
        occursSub (placeholderToken c) out.data) :=
  ⟨⟨rfl, rfl⟩, fun raw em c out hbc hcne hlk hocc h =>
    resolve_url_preserves raw em c out hbc hcne hlk hocc h⟩

/-- C4 witness: a placeholder absent from the map survives verbatim. -/
theorem C4_witness :
    occursSub (placeholderToken "q") ("\x7b\x7bq\x7d\x7d/x" : String).data :=
  C4_substitution.2 "\x7b\x7bq\x7d\x7d/x" [] "q" "\x7b\x7bq\x7d\x7d/x" rfl
    (by decide) rfl ⟨[], ['/', 'x'], rfl⟩ rfl

/-- C5: output order is depth-first and left-to-right.  The first conjunct:
a list node contributes the resolved requests of its head before those of
its tail.  The second conjunct: a node that is both a container and a
request lists the results of its nested items before its own pair. -/
theorem C5_order :
    (∀ (it : JVal) (rest : List JVal) (em : VarMap) (r1 r2 : List (JVal × String)),
        find_and_process_items it em = .ok r1 →
        find_and_process_items (.jarr rest) em = .ok r2 →
        find_and_process_items (.jarr (it :: rest)) em = .ok (r1 ++ r2)) ∧
    (∀ (fields : List (String × JVal)) (il : List JVal) (em : VarMap)
        (cres : List (JVal × String)),
        objGet? fields "item" = some (.jarr il) →
        find_and_process_items (.jarr il) em = .ok cres →
        find_and_process_items (.jobj fields) em = .ok (cres ++ requestPart fields em)) :=
  ⟨fun _ _ _ _ _ h1 h2 => find_jarr_cons h1 h2,
   fun _ _ _ _ hit hc => find_jobj_item hit hc⟩

/-- C5 witness: both order conjuncts instantiated on concrete nodes. -/
theorem C5_witness :
    find_and_process_items
        (.jarr [.jobj [("request", .jobj [("url", .jobj [("raw", .jstr "u1")])])]]) []
      = .ok ([((.jstr "N/A" : JVal), "u1")] ++ []) ∧
    find_and_process_items
        (.jobj [("item", .jarr [.jobj [("request",
            .jobj [("url", .jobj [("raw", .jstr "u1")])])]]),
          ("request", .jobj [("url", .jobj [("raw", .jstr "u0")])])]) []
      = .ok ([((.jstr "N/A" : JVal), "u1")] ++
          requestPart [("item", .jarr [.jobj [("request",
            .jobj [("url", .jobj [("raw", .jstr "u1")])])]]),
          ("request", .jobj [("url", .jobj [("raw", .jstr "u0")])])] []) :=
  ⟨C5_order.1 _ [] [] [((.jstr "N/A" : JVal), "u1")] [] rfl rfl,
   C5_order.2 _ _ [] [((.jstr "N/A" : JVal), "u1")] rfl rfl⟩

/-- C6: the length of the output sequence equals the number of tree nodes
whose request descriptor is successfully extracted, at any nesting depth. -/
theorem C6_length (t : JVal) (em : VarMap) (l : List (JVal × String))
    (h : find_and_process_items t em = .ok l) : l.length = countRequests t em :=
  fapiF_length (jsize t) t em l h

/-- C6 witness: a nested tree with two requests has output length equal to
its request count. -/
theorem C6_witness :
    ([((.jstr "N/A" : JVal), "u1"), ((.jstr "GET" : JVal), "u0")] : List (JVal × String)).length
      = countRequests
          (.jobj [("item", .jarr [.jobj [("request",
              .jobj [("url", .jobj [("raw", .jstr "u1")])])]]),
            ("request", .jobj [("method", .jstr "GET"),
              ("url", .jobj [("raw", .jstr "u0")])])]) [] :=
  C6_length _ [] _ rfl

/-- C7: for a dict environment document whose values field is a sequence,
when get_environment_map returns a map, a key is present in that map exactly
when some values entry passes the inclusion test (dict entry, truthy enabled
flag, key and value fields present) and carries an equal key; in particular
entries with enabled false never contribute. -/
theorem C7_membership (fields : List (String × JVal)) (vs : List JVal) (m : VarMap)
    (hv : objGet? fields "values" = some (.jarr vs))
    (hok : get_environment_map (.jobj fields) = .ok m) (k : JVal) :
    memVM m k = true ↔ ∃ e ∈ vs, entryMatches e k = true := by
  rw [gem_jobj_values hv] at hok
  have h2 := gemLoop_ok_mem vs [] m hok k
  simpa [memVM] using h2

/-- C7 witness: a disabled entry contributes nothing; an enabled one does. -/
theorem C7_witness :
    (memVM [(.jstr "a", .jstr "1")] (.jstr "b") = true ↔
      ∃ e ∈ [JVal.jobj [("enabled", .jbool false), ("key", .jstr "b"),
               ("value", .jstr "2")],
             JVal.jobj [("enabled", .jbool true), ("key", .jstr "a"),
               ("value", .jstr "1")]],
        entryMatches e (.jstr "b") = true) :=
  C7_membership [("values", .jarr
      [.jobj [("enabled", .jbool false), ("key", .jstr "b"), ("value", .jstr "2")],
       .jobj [("enabled", .jbool true), ("key", .jstr "a"), ("value", .jstr "1")]])]
    _ _ rfl rfl (.jstr "b")

/-- C8: with duplicate keys among enabled complete entries, the returned
map binds the key to the value of the last such entry in sequence order. -/
theorem C8_last_wins (fields : List (String × JVal)) (vs : List JVal) (m : VarMap)
    (k v : JVal) (hv : objGet? fields "values" = some (.jarr vs))
    (hok : get_environment_map (.jobj fields) = .ok m)
    (hlast : lastGoodBinding vs k = some v) :
    lookupVM m k = some v := by
  rw [gem_jobj_values hv] at hok
  have h2 := gemLoop_ok_lookup vs [] m hok k
  rw [hlast] at h2
  simpa using h2

/-- C8 witness: two enabled entries with the same key; the map holds the
later value. -/
theorem C8_witness :
    lookupVM [(.jstr "a", .jstr "2")] (.jstr "a") = some (.jstr "2") :=
  C8_last_wins [("values", .jarr
      [.jobj [("enabled", .jbool true), ("key", .jstr "a"), ("value", .jstr "1")],
       .jobj [("enabled", .jbool true), ("key", .jstr "a"), ("value", .jstr "2")]])]
    _ _ (.jstr "a") (.jstr "2") rfl rfl rfl

/-- C9: both components of the embedded core are pure functions, so two
runs on the same collection tree and variable map, or on the same
environment document, return identical results. -/
theorem C9_deterministic (t : JVal) (em : VarMap) (env_data : JVal) :
    find_and_process_items t em = find_and_process_items t em ∧
    get_environment_map env_data = get_environment_map env_data :=
  ⟨rfl, rfl⟩

/-- C10: a structurally well-formed request whose raw URL uses a
placeholder mapped to a non-string value is skipped whole (the TypeError of
str.replace is caught), contributing no entry to the output. -/
theorem C10_nonstring_skipped (fields rf uf : List (String × JVal)) (raw : String)
    (em : VarMap) (n : String) (v : JVal)
    (hni : objGet? fields "item" = none)
    (hrq : objGet? fields "request" = some (.jobj rf))
    (hu : objGet? rf "url" = some (.jobj uf))
    (hr : objGet? uf "raw" = some (.jstr raw))
    (hmem : n ∈ findPlaceholders raw.data)
    (hlk : lookupVar em n = some v)
    (hns : ∀ s, v ≠ .jstr s) :
    find_and_process_items (.jobj fields) em = .ok [] := by
  rw [find_jobj_noitem hni]
  have htp := tryProcessRequest_badvalue hu hr hmem hlk hns
  simp [requestPart, hrq, htp]

/-- C10 witness: a request with a numeric variable value yields nothing. -/
theorem C10_witness :
    find_and_process_items
      (.jobj [("request", .jobj [("url",
        .jobj [("raw", .jstr "x\x7b\x7ba\x7d\x7d")])])])
      [(.jstr "a", .jnum 3)] = .ok [] :=
  C10_nonstring_skipped _ _ _ "x\x7b\x7ba\x7d\x7d" [(.jstr "a", .jnum 3)] "a" (.jnum 3)
    rfl rfl rfl rfl (by decide) rfl (fun s h => JVal.noConfusion h)
